import Mathlib

/-!
# Verification of `center_of_lane_detection.py`

A shallow embedding of the geometric core of the lane-detection repository:
the slope grouper (`group_lines`), the segment classifier and lane-center
estimator (`detect_lane_center`), and the steering-angle calculator
(`calculate_steering_angle`).

Pixel coordinates and slopes are modelled as rationals.  The Python code
compares Euclidean lengths and distances (square roots); since `sqrt` is
strictly monotone on nonnegative reals, those comparisons are embedded as
the equivalent comparisons of squared lengths/distances, keeping every
definition executable over `ℚ`.
-/

namespace Lane

/-- A raw line segment `(x1,y1)-(x2,y2)` as delivered by the segment source
(`cv2.HoughLinesP` rows, `line.reshape(4)`). -/
structure Seg where
  x1 : ℚ
  y1 : ℚ
  x2 : ℚ
  y2 : ℚ
deriving DecidableEq, Repr

/-- Squared Euclidean length of a segment; the code's
`np.sqrt((x2-x1)**2 + (y2-y1)**2)` is compared only against other lengths,
so the squared value is an order-faithful embedding. -/
def Seg.len2 (s : Seg) : ℚ := (s.x2 - s.x1) ^ 2 + (s.y2 - s.y1) ^ 2

/-- Midpoint of a segment: `((x1+x2)/2, (y1+y2)/2)`. -/
def Seg.mid (s : Seg) : ℚ × ℚ := ((s.x1 + s.x2) / 2, (s.y1 + s.y2) / 2)

/-- Squared Euclidean distance between two points. -/
def dist2 (p q : ℚ × ℚ) : ℚ := (p.1 - q.1) ^ 2 + (p.2 - q.2) ^ 2

/-- Tuple `(slope, line_length, line)` built in `detect_lane_center`;
the length is stored squared (see `Seg.len2`). -/
structure LineT where
  slope : ℚ
  len2 : ℚ
  seg : Seg
deriving DecidableEq, Repr

/-- Comparison key of `sorted(lines, key=lambda x: x[0])`. -/
def slopeLE (a b : LineT) : Prop := a.slope ≤ b.slope

instance : DecidableRel slopeLE :=
  fun a b => inferInstanceAs (Decidable (a.slope ≤ b.slope))

instance : IsTotal LineT slopeLE := ⟨fun a b => le_total a.slope b.slope⟩

instance : IsTrans LineT slopeLE := ⟨fun _ _ _ hab hbc => le_trans hab hbc⟩

/-- The chaining test of `group_lines`: the new line joins the current group
iff its slope differs from the last-added line's slope by `< 0.3` and the
midpoints of the two segments are `< 90` pixels apart (`90² = 8100` on
squared distances). -/
def chainOK (last l : LineT) : Prop :=
  |l.slope - last.slope| < 3/10 ∧ dist2 last.seg.mid l.seg.mid < 8100

instance (last l : LineT) : Decidable (chainOK last l) := by
  unfold chainOK; infer_instance

/-- The grouping loop of `group_lines` (lines 54-71 of the source):
`cur` is the current group, `last` its most recently appended member. -/
def groupAux (cur : List LineT) (last : LineT) : List LineT → List (List LineT)
  | [] => [cur]
  | l :: ls =>
    if chainOK last l then groupAux (cur ++ [l]) l ls
    else cur :: groupAux [l] l ls

/-- Function `group_lines`: sort by slope ascending (Python's `sorted` is
stable, as is `List.insertionSort`), then chain-group; empty input yields
`[]`. -/
def group_lines (lines : List LineT) : List (List LineT) :=
  match lines.insertionSort slopeLE with
  | [] => []
  | l :: ls => groupAux [l] l ls

/-- The classification loop of `detect_lane_center` (lines 101-110):
skip vertical segments, compute slope and length, route by slope sign,
drop zero slopes.  `pos`/`neg` accumulate in iteration order. -/
def classifyAux (pos neg : List LineT) : List Seg → List LineT × List LineT
  | [] => (pos, neg)
  | s :: ss =>
    if s.x2 - s.x1 = 0 then classifyAux pos neg ss
    else
      let slope := (s.y2 - s.y1) / (s.x2 - s.x1)
      if slope > 0 then classifyAux (pos ++ [⟨slope, s.len2, s⟩]) neg ss
      else if slope < 0 then classifyAux pos (neg ++ [⟨slope, s.len2, s⟩]) ss
      else classifyAux pos neg ss

/-- Partition the raw segments into positive- and negative-slope lists. -/
def classify (lines : List Seg) : List LineT × List LineT :=
  classifyAux [] [] lines

/-- Python's `max(x_coords)` as a left fold; the default `0` is only
reached on `[]`, which the code guards against. -/
def maxQ : List ℚ → ℚ
  | [] => 0
  | q :: qs => qs.foldl max q

/-- Python's `min(x_coords)`; same remarks as `maxQ`. -/
def minQ : List ℚ → ℚ
  | [] => 0
  | q :: qs => qs.foldl min q

/-- Expression `line[2].reshape(4)[::2]` collects `x1` and `x2` of every
line. -/
def xCoords (ls : List LineT) : List ℚ :=
  ls.flatMap (fun l => [l.seg.x1, l.seg.x2])

/-- The one-sided branch (lines 117-136): flatten the groups, collect the
x endpoint coordinates; with at least two of them spanning more than 400
pixels return `((max+min)/2, height/2)`, otherwise the given sentinel. -/
def sideEstimate (groups : List (List LineT)) (imageHeight : ℚ)
    (sentinel : ℚ × ℚ) : ℚ × ℚ :=
  let xs := xCoords groups.flatten
  if 1 < xs.length ∧ maxQ xs - minQ xs > 400 then
    ((maxQ xs + minQ xs) / 2, imageHeight / 2)
  else sentinel

/-- Python's `max(group, key=lambda x: x[1], default=None)`: `max` keeps
the first element among key-ties, replacing the running best only on a
strictly greater key. -/
def maxByLen : List LineT → Option LineT
  | [] => none
  | l :: ls => some (ls.foldl (fun acc x => if x.len2 > acc.len2 then x else acc) l)

/-- Endpoint collection of the both-sides branch (lines 139-152): both
endpoints of each group's longest line, groups in order. -/
def repPoints (groups : List (List LineT)) : List (ℚ × ℚ) :=
  groups.flatMap (fun g =>
    match maxByLen g with
    | none => []
    | some l => [(l.seg.x1, l.seg.y1), (l.seg.x2, l.seg.y2)])

/-- Python's `max(points, key=lambda point: point[0])`: the first
maximal-x point. -/
def maxByFst : List (ℚ × ℚ) → ℚ × ℚ
  | [] => (0, 0)
  | p :: ps => ps.foldl (fun acc q => if q.1 > acc.1 then q else acc) p

/-- Python's `min(points, key=lambda point: point[0])`: the first
minimal-x point. -/
def minByFst : List (ℚ × ℚ) → ℚ × ℚ
  | [] => (0, 0)
  | p :: ps => ps.foldl (fun acc q => if q.1 < acc.1 then q else acc) p

/-- The core of `detect_lane_center` (lines 96-162), taking the segment
list produced by the Hough transform (`none` models `lines is None`).
A `(None, None)` return is modelled as `none`; every numeric return
`(x, y)` as `some (x, y)`. -/
def detect_lane_center (lines? : Option (List Seg)) (imageHeight : ℚ) :
    Option (ℚ × ℚ) :=
  match lines? with
  | none => none
  | some lines =>
    let pn := classify lines
    let positive_groups := group_lines pn.1
    let negative_groups := group_lines pn.2
    if positive_groups = [] ∧ negative_groups ≠ [] then
      some (sideEstimate negative_groups imageHeight (-1, -1))
    else if negative_groups = [] ∧ positive_groups ≠ [] then
      some (sideEstimate positive_groups imageHeight (1, 1))
    else
      let points := repPoints positive_groups ++ repPoints negative_groups
      if points.length < 2 then none
      else
        let pmax := maxByFst points
        let pmin := minByFst points
        some ((pmax.1 + pmin.1) / 2, (pmax.2 + pmin.2) / 2)

/-- Function `calculate_steering_angle` (lines 164-180). -/
def calculate_steering_angle (image_width lane_center_x max_steering_angle : ℚ) : ℚ :=
  let deviation := lane_center_x - image_width / 2
  deviation / (image_width / 2) * max_steering_angle

/-!
## Spec-side definitions

Definitions written from the specification's words, to be compared with
the source-derived ones above.
-/

/-- Spec-side routing of one raw segment to the positive-slope list: kept
exactly when the segment is non-vertical and its slope is positive. -/
def posOf (s : Seg) : Option LineT :=
  if s.x2 - s.x1 ≠ 0 ∧ 0 < (s.y2 - s.y1) / (s.x2 - s.x1) then
    some ⟨(s.y2 - s.y1) / (s.x2 - s.x1), s.len2, s⟩
  else none

/-- Spec-side routing of one raw segment to the negative-slope list. -/
def negOf (s : Seg) : Option LineT :=
  if s.x2 - s.x1 ≠ 0 ∧ (s.y2 - s.y1) / (s.x2 - s.x1) < 0 then
    some ⟨(s.y2 - s.y1) / (s.x2 - s.x1), s.len2, s⟩
  else none

/-- Spec-side grouping loop, phrased as the spec does: the current group is
carried whole (head `c0`, tail `ctail`) and the chaining test compares the
new element against the current group's last-added member, literally its
last element. -/
def groupSpecAux (c0 : LineT) (ctail : List LineT) : List LineT → List (List LineT)
  | [] => [c0 :: ctail]
  | l :: ls =>
    if chainOK (ctail.getLastD c0) l then groupSpecAux c0 (ctail ++ [l]) ls
    else (c0 :: ctail) :: groupSpecAux l [] ls

/-- Spec-side `group_lines`: sort ascending by slope, start the first group
with the first element, then chain-group against each group's last element. -/
def group_lines_spec (lines : List LineT) : List (List LineT) :=
  match lines.insertionSort slopeLE with
  | [] => []
  | l :: ls => groupSpecAux l [] ls

/-- Python's keep-first argmax over a key `f`: the running best is replaced
only on a strictly greater key.  `maxByLen` and `maxByFst` are instances. -/
def pickMax {α : Type} (f : α → ℚ) (a : α) (l : List α) : α :=
  l.foldl (fun acc x => if f x > f acc then x else acc) a

/-- All endpoints collected in the both-sides branch of `detect_lane_center`:
positive-slope groups are walked first, then negative-slope groups. -/
def bothPoints (lines : List Seg) : List (ℚ × ℚ) :=
  repPoints (group_lines (classify lines).1) ++
    repPoints (group_lines (classify lines).2)

/-!
## Helper lemmas
-/

theorem groupAux_flatten (rest : List LineT) :
    ∀ (cur : List LineT) (last : LineT),
      (groupAux cur last rest).flatten = cur ++ rest := by
  induction rest with
  | nil => intro cur last; simp [groupAux]
  | cons l ls ih =>
    intro cur last
    by_cases h : chainOK last l
    · simp [groupAux, h, ih]
    · simp [groupAux, h, ih]

theorem groupAux_ne_nil (rest : List LineT) :
    ∀ (cur : List LineT) (last : LineT), cur ≠ [] →
      ∀ g ∈ groupAux cur last rest, g ≠ [] := by
  induction rest with
  | nil =>
    intro cur last hc g hg
    simp only [groupAux, List.mem_singleton] at hg
    exact hg ▸ hc
  | cons l ls ih =>
    intro cur last hc g hg
    by_cases h : chainOK last l
    · rw [groupAux, if_pos h] at hg
      exact ih _ _ (by simp) g hg
    · rw [groupAux, if_neg h] at hg
      rcases List.mem_cons.1 hg with rfl | hg
      · exact hc
      · exact ih _ _ (by simp) g hg

theorem group_lines_flatten (lines : List LineT) :
    (group_lines lines).flatten = lines.insertionSort slopeLE := by
  unfold group_lines
  cases h : lines.insertionSort slopeLE with
  | nil => simp
  | cons l ls => simp [groupAux_flatten]

theorem group_lines_groups_ne_nil (lines : List LineT) :
    ∀ g ∈ group_lines lines, g ≠ [] := by
  unfold group_lines
  cases h : lines.insertionSort slopeLE with
  | nil => simp
  | cons l ls => exact groupAux_ne_nil ls [l] l (by simp)

theorem insertionSort_slope_sorted (lines : List LineT) :
    (lines.insertionSort slopeLE).Pairwise (fun a b => a.slope ≤ b.slope) :=
  List.sorted_insertionSort slopeLE lines

theorem foldl_max_mem (qs : List ℚ) : ∀ a : ℚ, qs.foldl max a ∈ a :: qs := by
  induction qs with
  | nil => simp
  | cons b bs ih =>
    intro a
    rw [List.foldl_cons]
    rcases List.mem_cons.1 (ih (max a b)) with h | h
    · rcases max_choice a b with h2 | h2 <;> rw [h, h2] <;> simp
    · simp [h]

theorem foldl_max_le (qs : List ℚ) : ∀ a x : ℚ, x ∈ a :: qs → x ≤ qs.foldl max a := by
  induction qs with
  | nil =>
    intro a x hx
    simp only [List.mem_singleton] at hx
    simp [hx]
  | cons b bs ih =>
    intro a x hx
    rw [List.foldl_cons]
    rcases List.mem_cons.1 hx with rfl | hx
    · exact le_trans (le_max_left _ _) (ih _ _ (List.mem_cons_self _ _))
    · rcases List.mem_cons.1 hx with rfl | hx
      · exact le_trans (le_max_right _ _) (ih _ _ (List.mem_cons_self _ _))
      · exact ih (max a b) x (List.mem_cons_of_mem _ hx)

theorem foldl_min_mem (qs : List ℚ) : ∀ a : ℚ, qs.foldl min a ∈ a :: qs := by
  induction qs with
  | nil => simp
  | cons b bs ih =>
    intro a
    rw [List.foldl_cons]
    rcases List.mem_cons.1 (ih (min a b)) with h | h
    · rcases min_choice a b with h2 | h2 <;> rw [h, h2] <;> simp
    · simp [h]

theorem foldl_min_le (qs : List ℚ) : ∀ a x : ℚ, x ∈ a :: qs → qs.foldl min a ≤ x := by
  induction qs with
  | nil =>
    intro a x hx
    simp only [List.mem_singleton] at hx
    simp [hx]
  | cons b bs ih =>
    intro a x hx
    rw [List.foldl_cons]
    rcases List.mem_cons.1 hx with rfl | hx
    · exact le_trans (ih _ _ (List.mem_cons_self _ _)) (min_le_left _ _)
    · rcases List.mem_cons.1 hx with rfl | hx
      · exact le_trans (ih _ _ (List.mem_cons_self _ _)) (min_le_right _ _)
      · exact ih (min a b) x (List.mem_cons_of_mem _ hx)

theorem maxQ_spec (xs : List ℚ) (h : xs ≠ []) :
    maxQ xs ∈ xs ∧ ∀ x ∈ xs, x ≤ maxQ xs := by
  cases xs with
  | nil => exact absurd rfl h
  | cons q qs =>
    exact ⟨foldl_max_mem qs q, fun x hx => foldl_max_le qs q x hx⟩

theorem minQ_spec (xs : List ℚ) (h : xs ≠ []) :
    minQ xs ∈ xs ∧ ∀ x ∈ xs, minQ xs ≤ x := by
  cases xs with
  | nil => exact absurd rfl h
  | cons q qs =>
    exact ⟨foldl_min_mem qs q, fun x hx => foldl_min_le qs q x hx⟩

theorem pickMax_spec {α : Type} (f : α → ℚ) (l : List α) :
    ∀ a : α, ∃ pre post, a :: l = pre ++ pickMax f a l :: post ∧
      (∀ x ∈ pre, f x < f (pickMax f a l)) ∧
      (∀ x ∈ a :: l, f x ≤ f (pickMax f a l)) := by
  induction l with
  | nil =>
    intro a
    exact ⟨[], [], rfl, by simp, by
      intro x hx
      simp only [List.mem_singleton] at hx
      simp [hx, pickMax]⟩
  | cons b bs ih =>
    intro a
    by_cases hab : f b > f a
    · have hstep : pickMax f a (b :: bs) = pickMax f b bs := by
        simp [pickMax, List.foldl_cons, hab]
      rcases ih b with ⟨pre, post, hdec, hpre, hle⟩
      have hbres : f b ≤ f (pickMax f b bs) := hle b (List.mem_cons_self _ _)
      refine ⟨a :: pre, post, ?_, ?_, ?_⟩
      · rw [hstep, List.cons_append]
        exact congrArg (a :: ·) hdec
      · intro x hx
        rw [hstep]
        rcases List.mem_cons.1 hx with rfl | hx
        · exact lt_of_lt_of_le hab hbres
        · exact hpre x hx
      · intro x hx
        rw [hstep]
        rcases List.mem_cons.1 hx with rfl | hx
        · exact le_of_lt (lt_of_lt_of_le hab hbres)
        · exact hle x hx
    · have hstep : pickMax f a (b :: bs) = pickMax f a bs := by
        simp [pickMax, List.foldl_cons, hab]
      have hba : f b ≤ f a := le_of_not_lt hab
      rcases ih a with ⟨pre, post, hdec, hpre, hle⟩
      have hares : f a ≤ f (pickMax f a bs) := hle a (List.mem_cons_self _ _)
      cases pre with
      | nil =>
        simp only [List.nil_append] at hdec
        injection hdec with ha hbs
        refine ⟨[], b :: bs, ?_, by simp, ?_⟩
        · rw [hstep, List.nil_append, ← ha]
        · intro x hx
          rw [hstep]
          rcases List.mem_cons.1 hx with rfl | hx
          · exact hares
          · rcases List.mem_cons.1 hx with rfl | hx
            · exact le_trans hba hares
            · exact hle x (List.mem_cons_of_mem _ hx)
      | cons p pre' =>
        rw [List.cons_append] at hdec
        injection hdec with hap hbs
        have hapre : f a < f (pickMax f a bs) := by
          have h := hpre p (List.mem_cons_self _ _)
          rw [← hap] at h
          exact h
        refine ⟨a :: b :: pre', post, ?_, ?_, ?_⟩
        · rw [hstep, List.cons_append, List.cons_append]
          exact congrArg (fun t => a :: b :: t) hbs
        · intro x hx
          rw [hstep]
          rcases List.mem_cons.1 hx with rfl | hx
          · exact hapre
          · rcases List.mem_cons.1 hx with rfl | hx
            · exact lt_of_le_of_lt hba hapre
            · exact hpre x (List.mem_cons_of_mem _ hx)
        · intro x hx
          rw [hstep]
          rcases List.mem_cons.1 hx with rfl | hx
          · exact hares
          · rcases List.mem_cons.1 hx with rfl | hx
            · exact le_trans hba hares
            · exact hle x (List.mem_cons_of_mem _ hx)

theorem pickMinFst_aux (l : List (ℚ × ℚ)) : ∀ a : ℚ × ℚ,
    (l.foldl (fun acc q => if q.1 < acc.1 then q else acc) a) ∈ a :: l ∧
    ∀ q ∈ a :: l, (l.foldl (fun acc q => if q.1 < acc.1 then q else acc) a).1 ≤ q.1 := by
  induction l with
  | nil =>
    intro a
    refine ⟨by simp, ?_⟩
    intro q hq
    simp only [List.foldl_nil]
    simp only [List.mem_singleton] at hq
    simp [hq]
  | cons b bs ih =>
    intro a
    rw [List.foldl_cons]
    by_cases hb : b.1 < a.1
    · simp only [if_pos hb]
      rcases ih b with ⟨hmem, hle⟩
      refine ⟨List.mem_cons_of_mem a hmem, ?_⟩
      intro q hq
      rcases List.mem_cons.1 hq with rfl | hq
      · exact le_trans (hle b (List.mem_cons_self _ _)) (le_of_lt hb)
      · exact hle q hq
    · simp only [if_neg hb]
      have hab : a.1 ≤ b.1 := le_of_not_lt hb
      rcases ih a with ⟨hmem, hle⟩
      constructor
      · rcases List.mem_cons.1 hmem with h | h
        · simp [h]
        · exact List.mem_cons_of_mem _ (List.mem_cons_of_mem _ h)
      · intro q hq
        rcases List.mem_cons.1 hq with rfl | hq
        · exact hle q (List.mem_cons_self _ _)
        · rcases List.mem_cons.1 hq with rfl | hq
          · exact le_trans (hle a (List.mem_cons_self _ _)) hab
          · exact hle q (List.mem_cons_of_mem _ hq)

theorem minByFst_spec (ps : List (ℚ × ℚ)) (h : ps ≠ []) :
    minByFst ps ∈ ps ∧ ∀ q ∈ ps, (minByFst ps).1 ≤ q.1 := by
  cases ps with
  | nil => exact absurd rfl h
  | cons p pr => exact pickMinFst_aux pr p

theorem maxByFst_spec (ps : List (ℚ × ℚ)) (h : ps ≠ []) :
    maxByFst ps ∈ ps ∧ ∀ q ∈ ps, q.1 ≤ (maxByFst ps).1 := by
  cases ps with
  | nil => exact absurd rfl h
  | cons p pr =>
    rcases pickMax_spec Prod.fst pr p with ⟨pre, post, hdec, _, hle⟩
    constructor
    · show pickMax Prod.fst p pr ∈ p :: pr
      rw [hdec]
      exact List.mem_append.2 (Or.inr (List.mem_cons_self _ _))
    · exact fun q hq => hle q hq

theorem maxByLen_spec (g : List LineT) (h : g ≠ []) :
    ∃ l pre post, maxByLen g = some l ∧ g = pre ++ l :: post ∧
      (∀ x ∈ pre, x.len2 < l.len2) ∧ ∀ x ∈ g, x.len2 ≤ l.len2 := by
  cases g with
  | nil => exact absurd rfl h
  | cons b bs =>
    rcases pickMax_spec LineT.len2 bs b with ⟨pre, post, hdec, hpre, hle⟩
    exact ⟨pickMax LineT.len2 b bs, pre, post, rfl, hdec, hpre, hle⟩

theorem classifyAux_eq (ss : List Seg) : ∀ pos neg : List LineT,
    classifyAux pos neg ss = (pos ++ ss.filterMap posOf, neg ++ ss.filterMap negOf) := by
  induction ss with
  | nil => intro pos neg; simp [classifyAux]
  | cons s ss ih =>
    intro pos neg
    by_cases h0 : s.x2 - s.x1 = 0
    · have hp : posOf s = none := by simp [posOf, h0]
      have hn : negOf s = none := by simp [negOf, h0]
      simp [classifyAux, h0, ih, hp, hn]
    · by_cases hpos : (s.y2 - s.y1) / (s.x2 - s.x1) > 0
      · have hp : posOf s = some ⟨(s.y2 - s.y1) / (s.x2 - s.x1), s.len2, s⟩ := by
          simp [posOf, h0, hpos]
        have hn : negOf s = none := by
          simp only [negOf, ite_eq_right_iff, and_imp]
          intro _ hlt
          exact absurd hlt (not_lt_of_gt hpos)
        simp [classifyAux, h0, hpos, ih, hp, hn]
      · by_cases hneg : (s.y2 - s.y1) / (s.x2 - s.x1) < 0
        · have hp : posOf s = none := by
            simp only [posOf, ite_eq_right_iff, and_imp]
            intro _ hgt
            exact absurd hgt (not_lt_of_gt hneg)
          have hn : negOf s = some ⟨(s.y2 - s.y1) / (s.x2 - s.x1), s.len2, s⟩ := by
            simp [negOf, h0, hneg]
          simp [classifyAux, h0, hpos, hneg, ih, hp, hn]
        · have hp : posOf s = none := by simp [posOf, hpos]
          have hn : negOf s = none := by simp [negOf, hneg]
          simp [classifyAux, h0, hpos, hneg, ih, hp, hn]

theorem groupAux_eq_spec (rest : List LineT) : ∀ (c0 : LineT) (ctail : List LineT),
    groupAux (c0 :: ctail) (ctail.getLastD c0) rest = groupSpecAux c0 ctail rest := by
  induction rest with
  | nil => intro c0 ctail; rfl
  | cons l ls ih =>
    intro c0 ctail
    by_cases h : chainOK (ctail.getLastD c0) l
    · rw [groupAux, if_pos h, groupSpecAux, if_pos h]
      have hcons : (c0 :: ctail) ++ [l] = c0 :: (ctail ++ [l]) := List.cons_append _ _ _
      rw [hcons]
      have hlast := ih c0 (ctail ++ [l])
      rw [List.getLastD_concat] at hlast
      exact hlast
    · rw [groupAux, if_neg h, groupSpecAux, if_neg h]
      exact congrArg (fun t => (c0 :: ctail) :: t) (ih l [])

theorem group_lines_eq_spec (lines : List LineT) :
    group_lines lines = group_lines_spec lines := by
  unfold group_lines group_lines_spec
  cases h : lines.insertionSort slopeLE with
  | nil => rfl
  | cons l ls => exact groupAux_eq_spec ls l []

theorem repPoints_length_pos (groups : List (List LineT)) (hg : groups ≠ [])
    (hne : ∀ g ∈ groups, g ≠ []) : 2 ≤ (repPoints groups).length := by
  cases groups with
  | nil => exact absurd rfl hg
  | cons g gs =>
    cases hg0 : g with
    | nil => exact absurd hg0 (hne g (List.mem_cons_self _ _))
    | cons b bs =>
      simp [repPoints, maxByLen, List.length_append]

theorem detect_none_eq (ht : ℚ) : detect_lane_center none ht = none := rfl

theorem detect_neg_only (ht : ℚ) (lines : List Seg)
    (hp : group_lines (classify lines).1 = [])
    (hn : group_lines (classify lines).2 ≠ []) :
    detect_lane_center (some lines) ht =
      some (sideEstimate (group_lines (classify lines).2) ht (-1, -1)) := by
  simp only [detect_lane_center]
  rw [if_pos ⟨hp, hn⟩]

theorem detect_pos_only (ht : ℚ) (lines : List Seg)
    (hn : group_lines (classify lines).2 = [])
    (hp : group_lines (classify lines).1 ≠ []) :
    detect_lane_center (some lines) ht =
      some (sideEstimate (group_lines (classify lines).1) ht (1, 1)) := by
  simp only [detect_lane_center]
  rw [if_neg (fun hand => hand.2 hn), if_pos ⟨hn, hp⟩]

theorem detect_both (ht : ℚ) (lines : List Seg)
    (hp : group_lines (classify lines).1 ≠ [])
    (hn : group_lines (classify lines).2 ≠ []) :
    detect_lane_center (some lines) ht =
      some (((maxByFst (bothPoints lines)).1 + (minByFst (bothPoints lines)).1) / 2,
            ((maxByFst (bothPoints lines)).2 + (minByFst (bothPoints lines)).2) / 2) := by
  have h2 : 2 ≤ (repPoints (group_lines (classify lines).1)).length :=
    repPoints_length_pos _ hp (group_lines_groups_ne_nil _)
  simp only [detect_lane_center, bothPoints]
  rw [if_neg (fun hand => hp hand.1), if_neg (fun hand => hn hand.1),
    if_neg (by rw [List.length_append]; omega)]

theorem detect_empty_groups (ht : ℚ) (lines : List Seg)
    (hp : group_lines (classify lines).1 = [])
    (hn : group_lines (classify lines).2 = []) :
    detect_lane_center (some lines) ht = none := by
  simp only [detect_lane_center]
  rw [if_neg (fun hand => hand.2 hn), if_neg (fun hand => hand.2 hp),
    if_pos (by simp [hp, hn, repPoints])]

theorem bothPoints_ne_nil (lines : List Seg)
    (hp : group_lines (classify lines).1 ≠ []) : bothPoints lines ≠ [] := by
  have h2 : 2 ≤ (repPoints (group_lines (classify lines).1)).length :=
    repPoints_length_pos _ hp (group_lines_groups_ne_nil _)
  unfold bothPoints
  intro h
  rw [List.append_eq_nil] at h
  rw [h.1] at h2
  simp at h2

theorem sideEstimate_spread (groups : List (List LineT)) (ht : ℚ) (sent : ℚ × ℚ)
    (hc : 1 < (xCoords groups.flatten).length ∧
      maxQ (xCoords groups.flatten) - minQ (xCoords groups.flatten) > 400) :
    sideEstimate groups ht sent =
      ((maxQ (xCoords groups.flatten) + minQ (xCoords groups.flatten)) / 2, ht / 2) := by
  simp only [sideEstimate]
  rw [if_pos hc]

theorem sideEstimate_sentinel (groups : List (List LineT)) (ht : ℚ) (sent : ℚ × ℚ)
    (hc : ¬(1 < (xCoords groups.flatten).length ∧
      maxQ (xCoords groups.flatten) - minQ (xCoords groups.flatten) > 400)) :
    sideEstimate groups ht sent = sent := by
  simp only [sideEstimate]
  rw [if_neg hc]

/-!
## Claim theorems
-/

/-- C3: for every nonzero image width, `calculate_steering_angle` returns
exactly `((lane_center_x - image_width/2) / (image_width/2)) *
max_steering_angle`; with width 315 and maximum angle 70, a lane center of
157.5 gives angle 0, of 315 gives 70, and of 0 gives -70. -/
theorem steering_angle_formula (w c m : ℚ) (_hw : w ≠ 0) :
    calculate_steering_angle w c m = (c - w / 2) / (w / 2) * m ∧
    calculate_steering_angle 315 (315 / 2) 70 = 0 ∧
    calculate_steering_angle 315 315 70 = 70 ∧
    calculate_steering_angle 315 0 70 = -70 := by
  refine ⟨rfl, ?_, ?_, ?_⟩ <;> norm_num [calculate_steering_angle]

theorem steering_angle_formula_witness :
    calculate_steering_angle 315 99 70 = (99 - 315 / 2) / (315 / 2) * 70 :=
  (steering_angle_formula 315 99 70 (by norm_num)).1

/-- C4 counterexample: the claim bounds the angle for every `lane_center_x`,
but a lane center of 630 in a 315-wide image with maximum angle 70 yields
210, which exceeds the maximum. -/
theorem steering_angle_unbounded_cex :
    calculate_steering_angle 315 630 70 = 210 ∧
    ¬calculate_steering_angle 315 630 70 ≤ 70 := by
  constructor <;> norm_num [calculate_steering_angle]

/-- C4 (amended): for every image width > 0, maximum angle ≥ 0, and lane
center x **inside the frame** (between 0 and the image width), the returned
angle lies in the closed range from minus the maximum to plus the maximum.
The unamended claim fails for out-of-frame centers, see
`steering_angle_unbounded_cex`. -/
theorem steering_angle_bounded (w c m : ℚ) (hw : 0 < w) (hm : 0 ≤ m)
    (h0 : 0 ≤ c) (hcw : c ≤ w) :
    -m ≤ calculate_steering_angle w c m ∧ calculate_steering_angle w c m ≤ m := by
  have hw2 : 0 < w / 2 := by linarith
  have h1 : (c - w / 2) / (w / 2) ≤ 1 := by
    rw [div_le_one hw2]; linarith
  have h2 : -1 ≤ (c - w / 2) / (w / 2) := by
    rw [le_div_iff₀ hw2]; linarith
  have e1 : (0 : ℚ) ≤ ((c - w / 2) / (w / 2) + 1) * m := mul_nonneg (by linarith) hm
  have e2 : (0 : ℚ) ≤ (1 - (c - w / 2) / (w / 2)) * m := mul_nonneg (by linarith) hm
  constructor
  · show -m ≤ (c - w / 2) / (w / 2) * m
    nlinarith [e1]
  · show (c - w / 2) / (w / 2) * m ≤ m
    nlinarith [e2]

theorem steering_angle_bounded_witness :
    -70 ≤ calculate_steering_angle 315 100 70 ∧
      calculate_steering_angle 315 100 70 ≤ 70 :=
  steering_angle_bounded 315 100 70 (by norm_num) (by norm_num) (by norm_num)
    (by norm_num)

/-- C10: for fixed image width > 0 and maximum angle > 0,
`calculate_steering_angle` is strictly increasing in the lane-center x,
vanishes exactly at the frame midpoint `image_width/2`, and is odd about
that midpoint. -/
theorem steering_angle_mono_odd (w m : ℚ) (hw : 0 < w) (hm : 0 < m) :
    StrictMono (fun c => calculate_steering_angle w c m) ∧
    (∀ c : ℚ, calculate_steering_angle w c m = 0 ↔ c = w / 2) ∧
    (∀ d : ℚ, calculate_steering_angle w (w / 2 + d) m =
      -calculate_steering_angle w (w / 2 - d) m) := by
  have hw2 : 0 < w / 2 := by linarith
  have hne : w / 2 ≠ 0 := ne_of_gt hw2
  refine ⟨?_, ?_, ?_⟩
  · intro c1 c2 hlt
    show (c1 - w / 2) / (w / 2) * m < (c2 - w / 2) / (w / 2) * m
    apply mul_lt_mul_of_pos_right _ hm
    rw [div_lt_div_iff_of_pos_right hw2]
    linarith
  · intro c
    show (c - w / 2) / (w / 2) * m = 0 ↔ c = w / 2
    rw [mul_eq_zero, div_eq_zero_iff]
    constructor
    · rintro ((h | h) | h)
      · linarith [sub_eq_zero.1 h]
      · exact absurd h hne
      · exact absurd h (ne_of_gt hm)
    · intro h
      exact Or.inl (Or.inl (by rw [h]; ring))
  · intro d
    show (w / 2 + d - w / 2) / (w / 2) * m = -((w / 2 - d - w / 2) / (w / 2) * m)
    field_simp
    ring

theorem steering_angle_mono_odd_witness :
    calculate_steering_angle 315 (315 / 2 + 10) 70 =
      -calculate_steering_angle 315 (315 / 2 - 10) 70 :=
  (steering_angle_mono_odd 315 70 (by norm_num) (by norm_num)).2.2 10

/-- C6: with no segments at all (`None` from the Hough transform, or an
empty list, or segments that all get dropped so that neither side has
groups), `detect_lane_center` returns the absent outcome `(None, None)` —
modelled as `none` — which is distinct from the numeric sentinels `(-1,-1)`
and `(1,1)` and from every coordinate pair. -/
theorem detect_no_point (ht : ℚ) :
    detect_lane_center none ht = none ∧
    detect_lane_center (some []) ht = none ∧
    (∀ lines : List Seg, group_lines (classify lines).1 = [] →
      group_lines (classify lines).2 = [] →
      detect_lane_center (some lines) ht = none) ∧
    detect_lane_center (some [⟨0, 0, 0, 5⟩]) ht = none ∧
    (∀ p : ℚ × ℚ, (none : Option (ℚ × ℚ)) ≠ some p) := by
  refine ⟨detect_none_eq ht, detect_empty_groups ht [] rfl rfl,
    fun lines hp hn => detect_empty_groups ht lines hp hn,
    detect_empty_groups ht [⟨0, 0, 0, 5⟩] ?_ ?_,
    fun p => (Option.some_ne_none p).symm⟩ <;>
      norm_num [classify, classifyAux, group_lines, List.insertionSort]

/-- C7: the classifier routes every non-vertical segment of positive slope
to the positive list and of negative slope to the negative list, in input
order, and silently drops vertical segments (`x1 = x2`) and zero-slope
segments: `classify` equals the filter-map of the spec-side routing
functions `posOf`/`negOf`. -/
theorem classify_routes_by_slope_sign (lines : List Seg) :
    classify lines = (lines.filterMap posOf, lines.filterMap negOf) ∧
    (∀ s : Seg, s.x1 = s.x2 ∨ (s.y2 - s.y1) / (s.x2 - s.x1) = 0 →
      posOf s = none ∧ negOf s = none) ∧
    (∀ s : Seg, s.x2 - s.x1 ≠ 0 → 0 < (s.y2 - s.y1) / (s.x2 - s.x1) →
      posOf s = some ⟨(s.y2 - s.y1) / (s.x2 - s.x1), s.len2, s⟩) ∧
    (∀ s : Seg, s.x2 - s.x1 ≠ 0 → (s.y2 - s.y1) / (s.x2 - s.x1) < 0 →
      negOf s = some ⟨(s.y2 - s.y1) / (s.x2 - s.x1), s.len2, s⟩) := by
  refine ⟨?_, ?_, ?_, ?_⟩
  · show classifyAux [] [] lines = _
    rw [classifyAux_eq]
    simp
  · intro s hs
    rcases hs with hs | hs
    · have h0 : s.x2 - s.x1 = 0 := by rw [hs]; ring
      constructor <;> simp [posOf, negOf, h0]
    · constructor
      · simp only [posOf, ite_eq_right_iff, and_imp]
        intro _ hgt
        rw [hs] at hgt
        exact absurd hgt (lt_irrefl 0)
      · simp only [negOf, ite_eq_right_iff, and_imp]
        intro _ hlt
        rw [hs] at hlt
        exact absurd hlt (lt_irrefl 0)
  · intro s h0 hpos
    simp [posOf, h0, hpos]
  · intro s h0 hneg
    simp [negOf, h0, hneg]

/-- C9: for a non-empty input, the groups returned by `group_lines`
concatenate to the input sorted ascending by slope (hence every input
element lands in exactly one group, counted with multiplicity), every group
is non-empty, and the groups appear in slope-ascending order: every member
of an earlier group has slope at most that of every member of a later
group. -/
theorem group_lines_partition (lines : List LineT) (_hl : lines ≠ []) :
    (group_lines lines).flatten = lines.insertionSort slopeLE ∧
    (group_lines lines).flatten.Perm lines ∧
    (∀ g ∈ group_lines lines, g ≠ []) ∧
    List.Pairwise (fun g1 g2 => ∀ a ∈ g1, ∀ b ∈ g2, a.slope ≤ b.slope)
      (group_lines lines) := by
  refine ⟨group_lines_flatten lines, ?_, group_lines_groups_ne_nil lines, ?_⟩
  · rw [group_lines_flatten]
    exact List.perm_insertionSort slopeLE lines
  · have hs := insertionSort_slope_sorted lines
    rw [← group_lines_flatten] at hs
    exact (List.pairwise_flatten.1 hs).2

theorem group_lines_partition_witness :
    (group_lines [⟨1, 2, ⟨0, 0, 1, 1⟩⟩, ⟨2, 5, ⟨0, 0, 1, 2⟩⟩]).flatten =
      List.insertionSort slopeLE [⟨1, 2, ⟨0, 0, 1, 1⟩⟩, ⟨2, 5, ⟨0, 0, 1, 2⟩⟩] :=
  (group_lines_partition [⟨1, 2, ⟨0, 0, 1, 1⟩⟩, ⟨2, 5, ⟨0, 0, 1, 2⟩⟩]
    (by simp)).1

/-- C5: when exactly one slope-sign side has groups, `detect_lane_center`
returns the one-sided estimate of that side: all member segments' x
endpoints are collected and, when at least two exist and they span more
than 400 pixels, the result is `((max+min)/2, image_height/2)`; otherwise
the sentinel `(-1,-1)` (negative-only) or `(1,1)` (positive-only).  In
particular one negative-slope segment spanning x from 0 to 450 yields
`(225, image_height/2)`. -/
theorem detect_one_sided_estimate (ht : ℚ) (lines : List Seg) :
    (group_lines (classify lines).1 = [] → group_lines (classify lines).2 ≠ [] →
      detect_lane_center (some lines) ht =
        some (sideEstimate (group_lines (classify lines).2) ht (-1, -1))) ∧
    (group_lines (classify lines).2 = [] → group_lines (classify lines).1 ≠ [] →
      detect_lane_center (some lines) ht =
        some (sideEstimate (group_lines (classify lines).1) ht (1, 1))) ∧
    (∀ (groups : List (List LineT)) (sent : ℚ × ℚ),
      (1 < (xCoords groups.flatten).length ∧
          maxQ (xCoords groups.flatten) - minQ (xCoords groups.flatten) > 400 →
        sideEstimate groups ht sent =
          ((maxQ (xCoords groups.flatten) + minQ (xCoords groups.flatten)) / 2,
            ht / 2)) ∧
      (¬(1 < (xCoords groups.flatten).length ∧
          maxQ (xCoords groups.flatten) - minQ (xCoords groups.flatten) > 400) →
        sideEstimate groups ht sent = sent)) ∧
    (∀ xs : List ℚ, xs ≠ [] → maxQ xs ∈ xs ∧ minQ xs ∈ xs ∧
      ∀ x ∈ xs, minQ xs ≤ x ∧ x ≤ maxQ xs) ∧
    detect_lane_center (some [⟨0, 500, 450, 100⟩]) ht = some (225, ht / 2) := by
  refine ⟨fun hp hn => detect_neg_only ht lines hp hn,
    fun hn hp => detect_pos_only ht lines hn hp,
    fun groups sent => ⟨fun hc => sideEstimate_spread groups ht sent hc,
      fun hc => sideEstimate_sentinel groups ht sent hc⟩,
    fun xs hxs => ⟨(maxQ_spec xs hxs).1, (minQ_spec xs hxs).1,
      fun x hx => ⟨(minQ_spec xs hxs).2 x hx, (maxQ_spec xs hxs).2 x hx⟩⟩, ?_⟩
  norm_num [detect_lane_center, classify, classifyAux, Seg.len2, group_lines,
    List.insertionSort, List.orderedInsert, slopeLE, groupAux, chainOK, dist2,
    Seg.mid, sideEstimate, xCoords, maxQ, minQ, repPoints, maxByLen, maxByFst,
    minByFst, List.cons_ne_nil, ne_eq]

/-- C1 counterexample: on the claim's concrete input both segments have
slope `+4` — `(100-500)/(300-400) = 4` and `(500-100)/(100-0) = 4` — so no
negative-slope group exists, the positive-only branch runs, the x span is
exactly 400 (not more), and the code returns the sentinel `(1, 1)`, not the
claimed `(200, 300)`. -/
theorem detect_claimed_example_cex :
    detect_lane_center (some [⟨400, 500, 300, 100⟩, ⟨0, 100, 100, 500⟩]) 600 =
      some (1, 1) ∧
    detect_lane_center (some [⟨400, 500, 300, 100⟩, ⟨0, 100, 100, 500⟩]) 600 ≠
      some (200, 300) := by
  have h : detect_lane_center
      (some [⟨400, 500, 300, 100⟩, ⟨0, 100, 100, 500⟩]) 600 = some (1, 1) := by
    norm_num [detect_lane_center, classify, classifyAux, Seg.len2, group_lines,
      List.insertionSort, List.orderedInsert, slopeLE, groupAux, chainOK, dist2,
      Seg.mid, sideEstimate, xCoords, maxQ, minQ, repPoints, maxByLen, maxByFst,
      minByFst, List.cons_ne_nil, ne_eq]
  refine ⟨h, ?_⟩
  rw [h]
  intro hco
  have h1 : (1 : ℚ) = 200 := congrArg Prod.fst (Option.some.inj hco)
  norm_num at h1

/-- C1 (amended): when both positive- and negative-slope groups are
present, `detect_lane_center` selects from each group its single longest
segment (first encountered wins among length ties), collects both endpoints
of every representative (positive groups first), and returns the midpoint
of the collected point with maximum x and the collected point with minimum
x.  The claim's concrete instance is amended: its two segments both have
slope 4, so that input returns the sentinel `(1, 1)` (see the
counterexample); a two-sided variant whose second segment is
`(0,100)-(100,0)` (slope `-1`, so the min-x endpoint is `(0,100)`) does
return `(200, 300)`. -/
theorem detect_both_sides_midpoint (ht : ℚ) (lines : List Seg)
    (hp : group_lines (classify lines).1 ≠ [])
    (hn : group_lines (classify lines).2 ≠ []) :
    (∀ g ∈ group_lines (classify lines).1 ++ group_lines (classify lines).2,
      ∃ l pre post, maxByLen g = some l ∧ g = pre ++ l :: post ∧
        (∀ x ∈ pre, x.len2 < l.len2) ∧ ∀ x ∈ g, x.len2 ≤ l.len2) ∧
    maxByFst (bothPoints lines) ∈ bothPoints lines ∧
    (∀ q ∈ bothPoints lines, q.1 ≤ (maxByFst (bothPoints lines)).1) ∧
    minByFst (bothPoints lines) ∈ bothPoints lines ∧
    (∀ q ∈ bothPoints lines, (minByFst (bothPoints lines)).1 ≤ q.1) ∧
    detect_lane_center (some lines) ht =
      some (((maxByFst (bothPoints lines)).1 + (minByFst (bothPoints lines)).1) / 2,
            ((maxByFst (bothPoints lines)).2 + (minByFst (bothPoints lines)).2) / 2) ∧
    detect_lane_center (some [⟨400, 500, 300, 100⟩, ⟨0, 100, 100, 0⟩]) ht =
      some (200, 300) := by
  have hbp := bothPoints_ne_nil lines hp
  refine ⟨?_, (maxByFst_spec _ hbp).1, (maxByFst_spec _ hbp).2,
    (minByFst_spec _ hbp).1, (minByFst_spec _ hbp).2,
    detect_both ht lines hp hn, ?_⟩
  · intro g hg
    have hgne : g ≠ [] := by
      rcases List.mem_append.1 hg with h | h
      · exact group_lines_groups_ne_nil _ g h
      · exact group_lines_groups_ne_nil _ g h
    exact maxByLen_spec g hgne
  · norm_num [detect_lane_center, classify, classifyAux, Seg.len2, group_lines,
      List.insertionSort, List.orderedInsert, slopeLE, groupAux, chainOK, dist2,
      Seg.mid, sideEstimate, xCoords, maxQ, minQ, repPoints, maxByLen, maxByFst,
      minByFst, List.cons_ne_nil, ne_eq]

theorem detect_both_sides_midpoint_witness :
    detect_lane_center (some [⟨400, 500, 300, 100⟩, ⟨0, 100, 100, 0⟩]) 600 =
      some (((maxByFst (bothPoints [⟨400, 500, 300, 100⟩, ⟨0, 100, 100, 0⟩])).1 +
              (minByFst (bothPoints [⟨400, 500, 300, 100⟩, ⟨0, 100, 100, 0⟩])).1) / 2,
            ((maxByFst (bothPoints [⟨400, 500, 300, 100⟩, ⟨0, 100, 100, 0⟩])).2 +
              (minByFst (bothPoints [⟨400, 500, 300, 100⟩, ⟨0, 100, 100, 0⟩])).2) / 2) :=
  (detect_both_sides_midpoint 600 [⟨400, 500, 300, 100⟩, ⟨0, 100, 100, 0⟩]
    (by norm_num [classify, classifyAux, Seg.len2, group_lines,
      List.insertionSort, List.orderedInsert, slopeLE, groupAux, chainOK, dist2,
      Seg.mid, List.cons_ne_nil, ne_eq])
    (by norm_num [classify, classifyAux, Seg.len2, group_lines,
      List.insertionSort, List.orderedInsert, slopeLE, groupAux, chainOK, dist2,
      Seg.mid, List.cons_ne_nil, ne_eq])).2.2.2.2.2.1

/-- C2: `group_lines` sorts the input ascending by slope, starts the first
group with the first element, and appends each subsequent element to the
current group exactly when its slope differs from the group's last-added
element's slope by less than 0.3 and the two segments' midpoints are less
than 90 pixels apart, otherwise starting a new group (`group_lines_spec` is
this procedure written from the spec's words, comparing literally against
the current group's last element); an empty input yields `[]`.  Two
sorted-adjacent segments with slope difference 0.25 merge at midpoint
distance 50 and split at midpoint distance 95. -/
theorem group_lines_behavior :
    group_lines [] = [] ∧
    (∀ lines : List LineT, group_lines lines = group_lines_spec lines) ∧
    (∀ a b : LineT, a.slope ≤ b.slope →
      group_lines [a, b] =
        if |b.slope - a.slope| < 3 / 10 ∧ dist2 a.seg.mid b.seg.mid < 8100 then
          [[a, b]]
        else [[a], [b]]) ∧
    group_lines [⟨1, 8, ⟨0, 0, 2, 2⟩⟩, ⟨5 / 4, 8, ⟨50, 0, 52, 2⟩⟩] =
      [[⟨1, 8, ⟨0, 0, 2, 2⟩⟩, ⟨5 / 4, 8, ⟨50, 0, 52, 2⟩⟩]] ∧
    group_lines [⟨1, 8, ⟨0, 0, 2, 2⟩⟩, ⟨5 / 4, 8, ⟨95, 0, 97, 2⟩⟩] =
      [[⟨1, 8, ⟨0, 0, 2, 2⟩⟩], [⟨5 / 4, 8, ⟨95, 0, 97, 2⟩⟩]] := by
  refine ⟨rfl, group_lines_eq_spec, ?_, ?_, ?_⟩
  · intro a b h
    have hsort : List.insertionSort slopeLE [a, b] = [a, b] := by
      simp only [List.insertionSort, List.orderedInsert]
      rw [if_pos (show slopeLE a b from h)]
    unfold group_lines
    rw [hsort]
    show (if chainOK a b then groupAux ([a] ++ [b]) b []
      else [a] :: groupAux [b] b []) = _
    by_cases hc : chainOK a b
    · have hc2 : |b.slope - a.slope| < 3 / 10 ∧
        dist2 a.seg.mid b.seg.mid < 8100 := hc
      rw [if_pos hc, if_pos hc2]
      rfl
    · have hc2 : ¬(|b.slope - a.slope| < 3 / 10 ∧
        dist2 a.seg.mid b.seg.mid < 8100) := hc
      rw [if_neg hc, if_neg hc2]
      rfl
  · norm_num [group_lines, List.insertionSort, List.orderedInsert, slopeLE,
      groupAux, chainOK, dist2, Seg.mid, abs_lt]
  · norm_num [group_lines, List.insertionSort, List.orderedInsert, slopeLE,
      groupAux, chainOK, dist2, Seg.mid, abs_lt]

end Lane
